import Mathlib

/-!
# Verification of the `imcflibs` utility functions

This file gives a shallow embedding of the pure computational content of
`src/imcflibs/imagej/misc.py` and `src/imcflibs/imagej/omerotools.py` and
proves (or refutes) the specification claims about them.

Modelling conventions:
* Python strings are `List Char`; Python `str.split`, `str.replace`,
  `str.strip` and the substring test `in` are modelled by `pySplit`,
  `pyReplace`, `pyStrip` and `· <:+: ·` (list infix) respectively.
* Python floats are idealised as exact rationals `ℚ`; float division is
  `ℚ` division.  Code that raises an exception is modelled with `Except`.
* Python 2 (Jython) `round(x, d)` rounds half away from zero to `d`
  decimal places and is modelled by `pyRound`; `round(v ** 0.5, d)` is
  modelled exactly by `pyRoundSqrt` (an integer-square-root computation
  whose agreement with rounding the exact real square root is proved in
  `pyRoundSqrt_eq_floor_sqrt` below).
* External objects (ImageJ image stacks, the OMERO client) are modelled
  by explicit structures holding exactly the data the code reads.
-/

namespace Imcflibs

/-! ## Python string primitives -/

/-- One step of Python's `str.split(sep)` (leftmost, non-overlapping
occurrences), with explicit fuel so that the recursion is structural.
With `fuel ≥ s.length` the fuel never runs out. -/
def pySplitGo (sep : List Char) : ℕ → List Char → List (List Char)
  | _, [] => [[]]
  | 0, s => [s]
  | fuel+1, c :: cs =>
    if sep <+: (c :: cs) then
      [] :: pySplitGo sep fuel (cs.drop (sep.length - 1))
    else
      match pySplitGo sep fuel cs with
      | [] => [[c]]
      | chunk :: rest => (c :: chunk) :: rest

/-- Python `s.split(sep)` for a non-empty separator `sep`.  (Python raises
`ValueError` on an empty separator; we return `[s]` there, a case never
exercised by the code under verification.) -/
def pySplit (sep s : List Char) : List (List Char) :=
  if sep = [] then [s] else pySplitGo sep s.length s

/-- Python `lst[0]` on a list produced by `split` (always non-empty). -/
def pyHead (l : List (List Char)) : List Char := l.headD []

/-- Python `lst[1]` (used by the code only when the element exists). -/
def pyIdx1 (l : List (List Char)) : List Char := l.getD 1 []

/-- Python `s.replace(old, new)`: every non-overlapping occurrence of
`old` is replaced by `new`.  This is exactly `new.join(s.split(old))`. -/
def pyReplace (old new s : List Char) : List Char :=
  List.intercalate new (pySplit old s)

/-- Python `s.strip()`: remove leading and trailing whitespace. -/
def pyStrip (s : List Char) : List Char :=
  (((s.dropWhile Char.isWhitespace).reverse).dropWhile Char.isWhitespace).reverse

/-! ## `omerotools.parse_url`

`parse_url(client, omero_str)` returns a list of image wrappers obtained
from the OMERO server.  The pure content is which branch is taken and
which identifier strings are handed to the client; we record that in
`ParseResult`.  `datasets ids` stands for "return all images of the
datasets with these ids" (the dataset branch), `images ids` stands for
"return `client.getImage(Long(id))` for each id, in order". -/

inductive ParseResult
  | datasets (ids : List (List Char))
  | images (ids : List (List Char))
deriving DecidableEq

/-- Shallow embedding of `omerotools.parse_url` (the string processing;
the calls into the OMERO client are abstracted by `ParseResult`).
Mirrors the source: the `"dataset-" in omero_str` test comes first; with
`"|"` present, every part containing `"dataset-"` contributes
`part.split("dataset-")[1].split("/")[0]`; the image branch maps
`s.split("%")[0].replace("|", "")` over `omero_str.split("image-")[1:]`;
otherwise the string is split on `","`.  (The `else` branch of the
source first computes a conditional expression whose value is
immediately overwritten by `omero_str.split(",")`; only the final value
is modelled.) -/
def parse_url (omero_str : List Char) : ParseResult :=
  if "dataset-".toList <:+: omero_str then
    ParseResult.datasets
      (if "|".toList <:+: omero_str then
        (pySplit "|".toList omero_str).filterMap fun part =>
          if "dataset-".toList <:+: part then
            some (pyHead (pySplit "/".toList (pyIdx1 (pySplit "dataset-".toList part))))
          else none
      else
        [pyHead (pySplit "/".toList (pyIdx1 (pySplit "dataset-".toList omero_str)))])
  else if "image-".toList <:+: omero_str then
    ParseResult.images
      (((pySplit "image-".toList omero_str).drop 1).map fun s =>
        pyReplace "|".toList [] (pyHead (pySplit "%".toList s)))
  else
    ParseResult.images (pySplit ",".toList omero_str)

/-- Fixed prefix of an OMERO.web URL (contains neither `image-` nor
`dataset-` nor any of the delimiter characters). -/
def urlBase : List Char := "https://omero/?show=".toList

/-- The part of an `image-`-delimited URL after the first `image-`
marker: identifiers joined by `|image-`. -/
def imageUrlBody : List (List Char) → List Char
  | [] => []
  | [i] => i
  | i :: rest => i ++ "|image-".toList ++ imageUrlBody rest

/-- An `image-`-delimited OMERO URL built from the given identifiers,
e.g. `https://omero/?show=image-12|image-34`. -/
def imageUrl (ids : List (List Char)) : List Char :=
  urlBase ++ "image-".toList ++ imageUrlBody ids

/-- The equivalent comma-separated identifier string, e.g. `12,34`. -/
def commaSeparated : List (List Char) → List Char
  | [] => []
  | [i] => i
  | i :: rest => i ++ [','] ++ commaSeparated rest

/-- The chunks produced by splitting an `image-`-delimited URL body:
every identifier but the last carries a trailing `|`. -/
def markTrail : List (List Char) → List (List Char)
  | [] => []
  | [i] => [i]
  | i :: rest => (i ++ ['|']) :: markTrail rest

/-- A well-formed numeric identifier: non-empty and made of digits. -/
def digitsOnly (s : List Char) : Prop := s ≠ [] ∧ ∀ c ∈ s, c.isDigit

instance (s : List Char) : Decidable (digitsOnly s) := by
  unfold digitsOnly; infer_instance

/-! ## `misc.calculate_mean_and_stdv` -/

/-- Python 2 `round(q, d)`: round half away from zero to `d` decimal
places. -/
def pyRound (q : ℚ) (d : ℕ) : ℚ :=
  let m : ℚ := (10:ℚ)^d
  if 0 ≤ q then ((⌊q * m + 1/2⌋ : ℤ) : ℚ) / m
  else -(((⌊-q * m + 1/2⌋ : ℤ) : ℚ) / m)

/-- Python 2 `round(v ** 0.5, d)` for `v ≥ 0`, computed exactly:
`⌊10^d * √v + 1/2⌋ / 10^d` where the inner floor is evaluated through
the integer square root (see `pyRoundSqrt_eq_floor_sqrt`). -/
def pyRoundSqrt (v : ℚ) (d : ℕ) : ℚ :=
  let a : ℕ := v.num.toNat
  let b : ℕ := v.den
  let n : ℕ := (Nat.sqrt (4 * 10^(2*d) * a * b) + b) / (2 * b)
  (n : ℚ) / (10:ℚ)^d

/-- Shallow embedding of `misc.calculate_mean_and_stdv`.  `None` entries
are dropped; on an empty remainder the pair `(0, 0)` is returned;
otherwise the mean is *rounded* (`round(sum/len, round_decimals)`,
default `0`), the variance is the mean squared deviation from that
rounded mean, and the standard deviation is `round(variance ** 0.5,
round_decimals)`. -/
def calculate_mean_and_stdv (values_list : List (Option ℚ)) (round_decimals : ℕ := 0) :
    ℚ × ℚ :=
  let filtered_list := values_list.filterMap id
  if filtered_list = [] then (0, 0)
  else
    let mean := pyRound (filtered_list.sum / (filtered_list.length : ℚ)) round_decimals
    let variance := (filtered_list.map fun x => (x - mean)^2).sum / (filtered_list.length : ℚ)
    (mean, pyRoundSqrt variance round_decimals)

/-- Textbook population mean of a list. -/
def textbookMean (l : List ℚ) : ℚ := l.sum / (l.length : ℚ)

/-- Textbook population variance of a list (squared deviations from the
exact mean). -/
def textbookVariance (l : List ℚ) : ℚ :=
  (l.map fun x => (x - textbookMean l)^2).sum / (l.length : ℚ)

/-! ## `misc.find_focus` -/

/-- The data of an ImageJ `ImagePlus` stack read by `find_focus`:
`getDimensions()` is `[width, height, nChannels, nSlices, nFrames]` and
`pixels t z` is the flattened pixel array of the slice selected by
`setT(t); setZ(z)`. -/
structure ImagePlus where
  width : ℕ
  height : ℕ
  nChannels : ℕ
  nSlices : ℕ
  nFrames : ℕ
  pixels : ℕ → ℕ → List ℚ

/-- How `find_focus` can fail: `sys.exit(...)` on a multi-channel image;
Python's `ZeroDivisionError` when a slice's score computation divides by
zero (`mean = sum(pix)/len(pix)` with an empty pixel array, or
`sumpix / (width * height * mean)` with a zero denominator, e.g. an
all-black slice); or Python's `NameError` at `return focused_slice` when
the timepoint loop body never ran (`nFrames = 0`) and the name was never
bound. -/
inductive FocusError
  | systemExit (msg : List Char)
  | zeroDivision
  | nameError
deriving DecidableEq

/-- The per-slice sharpness score of `find_focus`: the summed squared
deviation of the pixels from their mean, divided by
`width * height * mean` (a mean-normalised variance).  As in the
source, an empty pixel array (division by `len(pix_array)`) or a zero
denominator `width * height * mean` raises `ZeroDivisionError`. -/
def sliceVariance (imp : ImagePlus) (t z : ℕ) : Except FocusError ℚ :=
  let pix := imp.pixels t z
  if pix.length = 0 then .error .zeroDivision
  else
    let mean := pix.sum / (pix.length : ℚ)
    if (imp.width : ℚ) * (imp.height : ℚ) * mean = 0 then .error .zeroDivision
    else .ok (((pix.map fun x => (x - mean) * (x - mean)).sum)
      / ((imp.width : ℚ) * (imp.height : ℚ) * mean))

/-- One iteration of the inner `for current_z in range(1, nSlices + 1)`
loop of `find_focus`: a pending exception propagates; otherwise slice
`z` is scored (which may raise) and the running best `(focused_slice,
norm_var)` is updated when `var > norm_var`. -/
def focusStep (imp : ImagePlus) (t : ℕ) (acc : Except FocusError (ℕ × ℚ)) (z : ℕ) :
    Except FocusError (ℕ × ℚ) :=
  match acc with
  | .error e => .error e
  | .ok a =>
    match sliceVariance imp t z with
    | .error e => .error e
    | .ok var => .ok (if a.2 < var then (z, var) else a)

/-- The inner slice loop of `find_focus` for one timepoint, starting
from `(0, 0)`; a `ZeroDivisionError` raised while scoring a slice
aborts the loop and propagates. -/
def focusOfFrame (imp : ImagePlus) (t : ℕ) : Except FocusError (ℕ × ℚ) :=
  (List.range' 1 imp.nSlices).foldl (focusStep imp t) (.ok (0, 0))

/-- One iteration of the timepoint loop of `find_focus`: a pending
exception propagates; otherwise the inner loop runs for timepoint `t`,
overwriting the previous timepoint's result. -/
def frameStep (imp : ImagePlus) (acc : Except FocusError (Option ℕ)) (t : ℕ) :
    Except FocusError (Option ℕ) :=
  match acc with
  | .error e => .error e
  | .ok _ =>
    match focusOfFrame imp t with
    | .error e => .error e
    | .ok p => .ok (some p.1)

/-- Shallow embedding of `misc.find_focus`.  The variables
`focused_slice` / `norm_var` are re-initialised *inside* the timepoint
loop, so the returned value is the result of the *last* timepoint's
inner loop; an exception raised in any timepoint propagates out, and
`nFrames = 0` leaves `focused_slice` unbound (`NameError`). -/
def find_focus (imp : ImagePlus) : Except FocusError ℕ :=
  if imp.nChannels ≠ 1 then
    .error (.systemExit "Image has more than one channel, please reduce dimensionality".toList)
  else
    match (List.range' 1 imp.nFrames).foldl (frameStep imp) (.ok none) with
    | .error e => .error e
    | .ok none => .error .nameError
    | .ok (some z) => .ok z

/-- A concrete single-channel stack with 2 z-slices and 2 timepoints.
Slice scores: `t=1`: `z=1 ↦ 2`, `z=2 ↦ 0`; `t=2`: `z=1 ↦ 0`,
`z=2 ↦ 1/2`.  The globally sharpest slice is `z=1` (at `t=1`). -/
def exStack : ImagePlus where
  width := 2
  height := 1
  nChannels := 1
  nSlices := 2
  nFrames := 2
  pixels := fun t z =>
    if t = 1 ∧ z = 1 then [0, 4]
    else if t = 1 ∧ z = 2 then [1, 1]
    else if t = 2 ∧ z = 1 then [1, 1]
    else [1, 3]

/-! ## `misc.elapsed_time_since` -/

/-- The decimal digit character for `n < 10`. -/
def digitChar (n : ℕ) : Char :=
  match n with
  | 0 => '0' | 1 => '1' | 2 => '2' | 3 => '3' | 4 => '4'
  | 5 => '5' | 6 => '6' | 7 => '7' | 8 => '8' | _ => '9'

/-- Decimal digits of `n` (empty for `0`), with structural fuel. -/
def natDigitsAux : ℕ → ℕ → List Char
  | 0, _ => []
  | fuel+1, n => if n = 0 then [] else natDigitsAux fuel (n / 10) ++ [digitChar (n % 10)]

/-- Python `str(n)` for a natural number. -/
def natToChars (n : ℕ) : List Char := if n = 0 then ['0'] else natDigitsAux n n

/-- Python `str(i)` for an integer. -/
def intToChars (i : ℤ) : List Char :=
  if i < 0 then '-' :: natToChars i.natAbs else natToChars i.toNat

/-- Python `"{:0>2}".format(s)`: left-pad with `'0'` to width *at
least* 2 (longer strings are kept unchanged). -/
def padZero2 (s : List Char) : List Char := List.replicate (2 - s.length) '0' ++ s

/-- Round to the nearest integer, ties to even (the rounding used by
Python's float formatting). -/
def roundHalfEven (q : ℚ) : ℤ :=
  let f := ⌊q⌋
  if q - f < 1/2 then f
  else if 1/2 < q - f then f + 1
  else if f % 2 = 0 then f else f + 1

/-- Python `"{:05.2f}".format(s)` for `s ≥ 0`: two decimal places, the
whole string zero-padded to width at least 5 (so the integer part to
width at least 2). -/
def fmtSeconds (s : ℚ) : List Char :=
  let c := roundHalfEven (s * 100)
  padZero2 (intToChars (c / 100)) ++ ['.'] ++ padZero2 (natToChars (c % 100).toNat)

/-- The formatting core of `misc.elapsed_time_since` applied to the
elapsed value `x = end - start`: `divmod(x, 3600)` / `divmod(rem, 60)`
split the elapsed time and the three fields are formatted
`"{:0>2}:{:0>2}:{:05.2f}"` (Python's `divmod` on floats floors, and
`int(hours)` / `int(minutes)` convert the already-whole quotients). -/
def formatElapsed (x : ℚ) : List Char :=
  let hours : ℤ := ⌊x / 3600⌋
  let rem : ℚ := x - 3600 * (hours : ℚ)
  let minutes : ℤ := ⌊rem / 60⌋
  let seconds : ℚ := rem - 60 * (minutes : ℚ)
  padZero2 (intToChars hours) ++ [':'] ++ padZero2 (intToChars minutes) ++ [':']
    ++ fmtSeconds seconds

/-- Shallow embedding of `misc.elapsed_time_since`.  `now` stands for
the value `time.time()` would return; the Python parameter `end=None`
is `endv`, and the falsy test `if not end` replaces both `None` *and*
the number `0` by `now`. -/
def elapsed_time_since (now start : ℚ) (endv : Option ℚ) : List Char :=
  let e := match endv with
    | none => now
    | some v => if v = 0 then now else v
  formatElapsed (e - start)

/-- The claimed output shape `HH:MM:SS.ss`: two-digit hours and minutes
fields, a two-digit integer seconds field and exactly two decimal
places, all fields made of digits. -/
def isElapsedFormat (s : List Char) : Prop :=
  ∃ hh mm ip fp : List Char,
    s = hh ++ [':'] ++ mm ++ [':'] ++ ip ++ ['.'] ++ fp ∧
    hh.length = 2 ∧ mm.length = 2 ∧ ip.length = 2 ∧ fp.length = 2 ∧
    (∀ c ∈ hh, c.isDigit) ∧ (∀ c ∈ mm, c.isDigit) ∧
    (∀ c ∈ ip, c.isDigit) ∧ (∀ c ∈ fp, c.isDigit)

/-! ## `misc.percentage` -/

/-- Shallow embedding of `misc.percentage`: `100 * float(part) /
float(whole)`; Python raises `ZeroDivisionError` when `whole` is zero,
modelled as `Except.error`. -/
def percentage (part whole : ℚ) : Except String ℚ :=
  if whole = 0 then .error "ZeroDivisionError: float division by zero"
  else .ok (100 * part / whole)

/-! ## `misc.send_notification_email` -/

/-- The observable effects of `send_notification_email`: the `sendmail`
calls attempted (sender, recipient, full message) and the warning logged
by the `except smtplib.SMTPException` handler, if any. -/
structure EmailResult where
  attempts : List (List Char × List Char × List Char)
  warning : Option (List Char)
deriving DecidableEq

/-- Shallow embedding of `misc.send_notification_email`.  The two
ImageJ preferences are the parameters `pref_sender` / `pref_server`
(the source reads them with default `""` and `.strip()`s them); `smtp`
is the outcome of the SMTP exchange (`SMTP(server)` +
`sendmail(...)`).  The result is `Except`-typed to record that an
`SMTPException` is *caught*: every branch returns `.ok`. -/
def send_notification_email
    (pref_sender pref_server : List Char)
    (job_name recipient filename total_execution_time : List Char)
    (subject message : List Char)
    (smtp : Except (List Char) Unit) :
    Except (List Char) EmailResult :=
  let sender := pyStrip pref_sender
  let server := pyStrip pref_server
  if sender = [] then .ok ⟨[], none⟩
  else if server = [] then .ok ⟨[], none⟩
  else if pyStrip recipient = [] then .ok ⟨[], none⟩
  else
    let subject := if subject = [] then
        "Your ".toList ++ job_name ++ " job has finished".toList
      else subject
    let body := if message = [] then
        "Dear recipient,\n\nThis is an automated message.\nYour workflow '".toList
          ++ filename ++ "' has been processed (".toList ++ total_execution_time
          ++ " [HH:MM:SS:ss]).\n\nKind regards.\n".toList
      else message
    let msg := "From: ".toList ++ sender ++ "\nTo: ".toList ++ recipient
      ++ "\nSubject: ".toList ++ subject ++ "\n\n".toList ++ body
    match smtp with
    | .ok _ => .ok ⟨[(sender, recipient, msg)], none⟩
    | .error err =>
        .ok ⟨[(sender, recipient, msg)],
             some ("Error: Unable to send email: ".toList ++ err)⟩

end Imcflibs

/-! ## Lemmas about the Python string primitives -/

namespace Imcflibs

/-- A pattern containing a character that the string lacks cannot be an
infix of the string. -/
theorem not_infix_of_not_mem {c : Char} {sep s : List Char}
    (hc : c ∈ sep) (hs : c ∉ s) : ¬ sep <:+: s :=
  fun h => hs (h.sublist.subset hc)

/-- If `sep` does not occur in `s`, `split` returns the whole string,
for any fuel. -/
theorem pySplitGo_of_not_infix {sep : List Char} :
    ∀ (fuel : ℕ) (s : List Char), ¬ sep <:+: s → pySplitGo sep fuel s = [s] := by
  intro fuel
  induction fuel with
  | zero => intro s h; cases s <;> rfl
  | succ fuel ih =>
    intro s h
    cases s with
    | nil => rfl
    | cons c cs =>
      have hp : ¬ sep <+: (c :: cs) := fun hp => h hp.isInfix
      have hcs : ¬ sep <:+: cs := fun hcs => h (List.infix_cons hcs)
      simp only [pySplitGo, if_neg hp, ih cs hcs]

/-- `pySplitGo` does not depend on the fuel, as long as there is enough
of it. -/
theorem pySplitGo_fuel {sep : List Char} :
    ∀ (f₁ : ℕ) (s : List Char) (f₂ : ℕ), s.length ≤ f₁ → s.length ≤ f₂ →
      pySplitGo sep f₁ s = pySplitGo sep f₂ s := by
  intro f₁
  induction f₁ with
  | zero =>
    intro s f₂ h₁ _
    have : s = [] := List.length_eq_zero.mp (Nat.le_zero.mp h₁)
    subst this
    cases f₂ <;> rfl
  | succ f₁ ih =>
    intro s f₂ h₁ h₂
    cases s with
    | nil => cases f₂ <;> rfl
    | cons c cs =>
      cases f₂ with
      | zero => simp at h₂
      | succ f₂ =>
        by_cases hp : sep <+: (c :: cs)
        · simp only [pySplitGo, if_pos hp]
          have hd : (cs.drop (sep.length - 1)).length ≤ cs.length := by
            simp [List.length_drop]
          simp only [List.length_cons] at h₁ h₂
          rw [ih (cs.drop (sep.length - 1)) f₂ (by omega) (by omega)]
        · simp only [pySplitGo, if_neg hp]
          simp only [List.length_cons] at h₁ h₂
          rw [ih cs f₂ (by omega) (by omega)]

/-- Splitting `p ++ sep ++ t` peels off the chunk `p`, provided no
occurrence of `sep` starts inside `p` (no occurrence fits inside
`p ++ sep.dropLast`). -/
theorem pySplitGo_chunk {sep : List Char} (hsep : sep ≠ []) :
    ∀ (p : List Char) (fuel : ℕ) (t : List Char),
      p.length + sep.length + t.length ≤ fuel →
      ¬ sep <:+: (p ++ sep.dropLast) →
      pySplitGo sep fuel (p ++ sep ++ t) = p :: pySplitGo sep t.length t := by
  intro p
  induction p with
  | nil =>
    intro fuel t hfuel _
    have hlen : 0 < sep.length := List.length_pos.mpr hsep
    cases fuel with
    | zero => omega
    | succ fuel =>
      cases sep with
      | nil => exact absurd rfl hsep
      | cons c sep' =>
        simp only [List.nil_append, List.cons_append]
        have hpre : (c :: sep') <+: (c :: (sep' ++ t)) := ⟨t, by simp⟩
        simp only [pySplitGo, if_pos hpre]
        have hdrop : (sep' ++ t).drop ((c :: sep').length - 1) = t := by
          simp [List.drop_left]
        rw [hdrop]
        simp only [List.length_cons, List.length_append] at hfuel
        rw [pySplitGo_fuel fuel t t.length (by omega) (le_refl _)]
  | cons a p' ih =>
    intro fuel t hfuel hstr
    cases fuel with
    | zero => simp only [List.length_cons] at hfuel; omega
    | succ fuel =>
      simp only [List.cons_append]
      have hp : ¬ sep <+: (a :: (p' ++ sep ++ t)) := by
        intro hp
        apply hstr
        have hbig : (a :: p') ++ sep.dropLast <+: a :: (p' ++ sep ++ t) := by
          refine ⟨[sep.getLast hsep] ++ t, ?_⟩
          calc ((a :: p') ++ sep.dropLast) ++ ([sep.getLast hsep] ++ t)
              = (a :: p') ++ ((sep.dropLast ++ [sep.getLast hsep]) ++ t) := by
                simp [List.append_assoc]
            _ = (a :: p') ++ (sep ++ t) := by
                rw [List.dropLast_append_getLast hsep]
            _ = a :: (p' ++ sep ++ t) := by simp [List.append_assoc]
        have hlen : sep.length ≤ ((a :: p') ++ sep.dropLast).length := by
          simp [List.length_dropLast]
          omega
        exact (List.prefix_of_prefix_length_le hp hbig hlen).isInfix
      simp only [pySplitGo, if_neg hp]
      have hstr' : ¬ sep <:+: (p' ++ sep.dropLast) := by
        intro h
        exact hstr (by simpa using List.infix_cons h)
      simp only [List.length_cons] at hfuel
      rw [ih fuel t (by omega) hstr']

/-- `split` on a string not containing the separator. -/
theorem pySplit_of_not_infix {sep s : List Char} (hsep : sep ≠ [])
    (h : ¬ sep <:+: s) : pySplit sep s = [s] := by
  rw [pySplit, if_neg hsep]
  exact pySplitGo_of_not_infix s.length s h

/-- `split` on `p ++ sep ++ t` yields `p` followed by the chunks of
`t`, when no occurrence of `sep` starts inside `p`. -/
theorem pySplit_chunk {sep : List Char} (hsep : sep ≠ []) (p t : List Char)
    (h : ¬ sep <:+: (p ++ sep.dropLast)) :
    pySplit sep (p ++ sep ++ t) = p :: pySplit sep t := by
  rw [pySplit, if_neg hsep, pySplit, if_neg hsep]
  exact pySplitGo_chunk hsep p (p ++ sep ++ t).length t (by simp; omega) h

/-- `split` of the empty string. -/
theorem pySplit_nil {sep : List Char} (hsep : sep ≠ []) : pySplit sep [] = [[]] := by
  rw [pySplit, if_neg hsep]; rfl

end Imcflibs

namespace Imcflibs

/-! ## Evaluation helpers for the time formatting -/

/-- Unfold `fmtSeconds` given the value of the rounding. -/
theorem fmtSeconds_eval (s : ℚ) (c : ℤ) (hc : roundHalfEven (s * 100) = c) :
    fmtSeconds s =
      padZero2 (intToChars (c / 100)) ++ ['.'] ++ padZero2 (natToChars (c % 100).toNat) := by
  subst hc; rfl

/-- Unfold `formatElapsed` given the values of the two floors. -/
theorem formatElapsed_eval (x : ℚ) (H M : ℤ)
    (hH : ⌊x / 3600⌋ = H)
    (hM : ⌊(x - 3600 * (H : ℚ)) / 60⌋ = M) :
    formatElapsed x = padZero2 (intToChars H) ++ [':'] ++ padZero2 (intToChars M)
      ++ [':'] ++ fmtSeconds (x - 3600 * (H : ℚ) - 60 * (M : ℚ)) := by
  subst hH; subst hM; rfl

/-- With a non-zero explicit end time the current time is ignored. -/
theorem elapsed_time_since_some {v : ℚ} (now start : ℚ) (hv : v ≠ 0) :
    elapsed_time_since now start (some v) = formatElapsed (v - start) := by
  simp only [elapsed_time_since, if_neg hv]

/-! ## Claim C9 -/

/-- Claim C9: `elapsed_time_since` treats the falsy end value `0` like
an omitted end argument: `end=0` is replaced by the current time, so the
result coincides with the no-end call (first conjunct) and does *not*
format the interval from `start` to time zero — concretely, with the
current time at 3600 and `start = 0`, `end=0` yields `01:00:00.00`, one
hour of elapsed time, not `00:00:00.00`. -/
theorem elapsed_time_since_end_zero :
    (∀ now start : ℚ, elapsed_time_since now start (some 0) =
      elapsed_time_since now start none) ∧
    elapsed_time_since 3600 0 (some 0) = "01:00:00.00".toList := by
  constructor
  · intro now start
    simp [elapsed_time_since]
  · have hH : (⌊((3600:ℚ) - 0) / 3600⌋ : ℤ) = 1 := by norm_num [Int.floor_eq_iff]
    have hM : (⌊(((3600:ℚ) - 0) - 3600 * ((1:ℤ) : ℚ)) / 60⌋ : ℤ) = 0 := by
      norm_num
    have hone : elapsed_time_since 3600 0 (some 0) = formatElapsed (3600 - 0) := by
      simp [elapsed_time_since]
    rw [hone, formatElapsed_eval _ 1 0 hH hM]
    have hc : roundHalfEven ((((3600:ℚ) - 0) - 3600 * ((1:ℤ) : ℚ) - 60 * ((0:ℤ) : ℚ)) * 100)
        = 0 := by
      norm_num [roundHalfEven]
    rw [fmtSeconds_eval _ 0 hc]
    decide

/-! ## Claim C5 -/

/-- Claim C5: for a non-zero denominator, `percentage` returns exactly
`100 * part / whole`, with no rounding. -/
theorem percentage_spec (part whole : ℚ) (h : whole ≠ 0) :
    percentage part whole = .ok (100 * part / whole) := by
  rw [percentage, if_neg h]

/-- Witness for C5. -/
theorem percentage_spec_witness : percentage 1 4 = .ok 25 :=
  (percentage_spec 1 4 (by norm_num)).trans (by norm_num)

/-! ## Claim C8 -/

/-- Claim C8: `percentage` raises (`ZeroDivisionError`) exactly when
`whole = 0`; the division is unguarded, so the function is total only
under the precondition `whole ≠ 0`. -/
theorem percentage_error_iff (part whole : ℚ) :
    (∃ e, percentage part whole = .error e) ↔ whole = 0 := by
  constructor
  · rintro ⟨e, h⟩
    by_contra hc
    rw [percentage, if_neg hc] at h
    simp at h
  · intro h
    exact ⟨_, by rw [percentage, if_pos h]⟩

/-! ## Claim C7: supporting lemmas -/

/-- A left fold preserves any invariant its step preserves. -/
theorem foldl_preserve {α β : Type*} (P : β → Prop) (f : β → α → β)
    (hf : ∀ b a, P b → P (f b a)) :
    ∀ (l : List α) (b : β), P b → P (l.foldl f b) := by
  intro l
  induction l with
  | nil => intro b hb; exact hb
  | cons a l ih => intro b hb; exact ih (f b a) (hf b a hb)

/-- Scoring a slice can fail only with `ZeroDivisionError`, never with
`SystemExit`. -/
theorem sliceVariance_no_systemExit (imp : ImagePlus) (t z : ℕ) (msg : List Char) :
    sliceVariance imp t z ≠ .error (.systemExit msg) := by
  simp only [sliceVariance]
  split_ifs <;> simp

/-- A non-empty slice whose pixel values sum to zero (e.g. an all-black
slice) makes the score computation raise `ZeroDivisionError`: the
denominator `width * height * mean` is zero. -/
theorem sliceVariance_zero_sum (imp : ImagePlus) (t z : ℕ)
    (hne : imp.pixels t z ≠ []) (hsum : (imp.pixels t z).sum = 0) :
    sliceVariance imp t z = .error .zeroDivision := by
  simp only [sliceVariance]
  rw [if_neg (fun h => hne (List.length_eq_zero.mp h)),
    if_pos (by rw [hsum]; simp)]

/-- `focusStep` on an already-scored slice. -/
theorem focusStep_ok_of_ok (imp : ImagePlus) (t : ℕ) (a : ℕ × ℚ) (z : ℕ) (v : ℚ)
    (hv : sliceVariance imp t z = .ok v) :
    focusStep imp t (.ok a) z = .ok (if a.2 < v then (z, v) else a) := by
  show (match sliceVariance imp t z with
    | .error e => (.error e : Except FocusError (ℕ × ℚ))
    | .ok var => .ok (if a.2 < var then (z, var) else a)) = _
  rw [hv]

/-- `frameStep` when the timepoint's inner loop succeeds. -/
theorem frameStep_ok (imp : ImagePlus) (o : Option ℕ) (t : ℕ) (p : ℕ × ℚ)
    (hp : focusOfFrame imp t = .ok p) :
    frameStep imp (.ok o) t = .ok (some p.1) := by
  show (match focusOfFrame imp t with
    | .error e => (.error e : Except FocusError (Option ℕ))
    | .ok p => .ok (some p.1)) = _
  rw [hp]

/-- A timepoint's inner loop never fails with `SystemExit`. -/
theorem focusOfFrame_no_systemExit (imp : ImagePlus) (t : ℕ) (msg : List Char) :
    focusOfFrame imp t ≠ .error (.systemExit msg) := by
  unfold focusOfFrame
  apply foldl_preserve (fun acc => acc ≠ Except.error (FocusError.systemExit msg))
  · intro b a hb
    cases b with
    | error e => exact hb
    | ok p =>
      cases hsv : sliceVariance imp t a with
      | error e =>
        show (match sliceVariance imp t a with
          | .error e => (.error e : Except FocusError (ℕ × ℚ))
          | .ok var => .ok (if p.2 < var then (a, var) else p)) ≠ _
        rw [hsv]
        intro heq
        have he : e = FocusError.systemExit msg := by injection heq
        exact sliceVariance_no_systemExit imp t a msg (he ▸ hsv)
      | ok v =>
        rw [focusStep_ok_of_ok imp t p a v hsv]
        simp
  · simp

/-! ## Claim C7 -/

/-- Claim C7: `find_focus` terminates the process (`sys.exit`, modelled
as the `systemExit` error) if and only if the channel count differs
from one; on single-channel input that check never fires (the function
then returns a slice index or fails with the distinct `ZeroDivisionError`
or `NameError`). -/
theorem find_focus_systemExit_iff (imp : ImagePlus) :
    (∃ msg, find_focus imp = .error (.systemExit msg)) ↔ imp.nChannels ≠ 1 := by
  constructor
  · rintro ⟨msg, h⟩
    by_contra hc
    have hcc : ¬ (imp.nChannels ≠ 1) := fun hne => hne hc
    rw [find_focus, if_neg hcc] at h
    split at h
    · rename_i e heq
      have he : e = FocusError.systemExit msg := by injection h
      subst he
      have hstep : ∀ (b : Except FocusError (Option ℕ)) (a : ℕ),
          b ≠ Except.error (FocusError.systemExit msg) →
          frameStep imp b a ≠ Except.error (FocusError.systemExit msg) := by
        intro b a hb
        cases b with
        | error e' => exact hb
        | ok o =>
          cases hfo : focusOfFrame imp a with
          | error e' =>
            show (match focusOfFrame imp a with
              | .error e => (.error e : Except FocusError (Option ℕ))
              | .ok p => .ok (some p.1)) ≠ _
            rw [hfo]
            intro heq2
            have he' : e' = FocusError.systemExit msg := by injection heq2
            exact focusOfFrame_no_systemExit imp a msg (he' ▸ hfo)
          | ok p =>
            rw [frameStep_ok imp o a p hfo]
            simp
      exact foldl_preserve (fun acc => acc ≠ Except.error (FocusError.systemExit msg))
        (frameStep imp) hstep (List.range' 1 imp.nFrames) (Except.ok none) (by simp) heq
    · simp at h
    · simp at h
  · intro hc
    exact ⟨_, by rw [find_focus, if_pos hc]⟩

/-! ## Claim C10 -/

/-- Claim C10: any input containing the substring `dataset-` takes the
dataset branch of `parse_url` — the result is the images of the
referenced dataset(s) — even when the string also contains `image-`. -/
theorem parse_url_dataset_branch (s : List Char) (h : "dataset-".toList <:+: s) :
    ∃ ids, parse_url s = ParseResult.datasets ids :=
  ⟨_, by rw [parse_url, if_pos h]⟩

/-- Witness for C10: a URL naming both a dataset and an image. -/
theorem parse_url_dataset_branch_witness :
    ∃ ids, parse_url "https://omero/?show=dataset-1/image-2".toList
      = ParseResult.datasets ids :=
  parse_url_dataset_branch _ (by decide)

/-! ## Claim C6 -/

/-- Claim C6: `send_notification_email` returns without attempting any
mail delivery when the sender or SMTP-server preference is unset (empty
after stripping); and when the SMTP exchange fails, it logs the warning
`Error: Unable to send email: ...`, attempts delivery exactly once (no
retry) and returns normally (`.ok`, the exception is caught). -/
theorem send_notification_email_spec
    (pref_sender pref_server job_name recipient filename total_execution_time
      subject message : List Char)
    (smtp : Except (List Char) Unit) :
    (pyStrip pref_sender = [] ∨ pyStrip pref_server = [] →
      send_notification_email pref_sender pref_server job_name recipient filename
        total_execution_time subject message smtp = .ok ⟨[], none⟩) ∧
    (∀ err, smtp = .error err → pyStrip pref_sender ≠ [] → pyStrip pref_server ≠ [] →
      pyStrip recipient ≠ [] →
      ∃ m, send_notification_email pref_sender pref_server job_name recipient filename
          total_execution_time subject message smtp =
        .ok ⟨[(pyStrip pref_sender, recipient, m)],
             some ("Error: Unable to send email: ".toList ++ err)⟩) := by
  constructor
  · rintro (h | h)
    · simp [send_notification_email, h]
    · by_cases hs : pyStrip pref_sender = [] <;>
        simp [send_notification_email, hs, h]
  · intro err hsmtp h1 h2 h3
    subst hsmtp
    simp only [send_notification_email, if_neg h1, if_neg h2, if_neg h3]
    exact ⟨_, rfl⟩

/-- Witness for C6: an unset (whitespace-only) sender preference on the
one hand, a failing SMTP exchange on the other. -/
theorem send_notification_email_spec_witness :
    send_notification_email " ".toList "smtp.example.org".toList "job".toList
      "r@x.org".toList "f.czi".toList "0:01".toList [] [] (.ok ()) = .ok ⟨[], none⟩ ∧
    ∃ m, send_notification_email "a@b.org".toList "smtp.example.org".toList "job".toList
        "r@x.org".toList "f.czi".toList "0:01".toList [] [] (.error "boom".toList) =
      .ok ⟨[(pyStrip "a@b.org".toList, "r@x.org".toList, m)],
           some ("Error: Unable to send email: ".toList ++ "boom".toList)⟩ := by
  constructor
  · exact (send_notification_email_spec _ _ _ _ _ _ _ _ _).1 (Or.inl (by decide))
  · exact (send_notification_email_spec _ _ _ _ _ _ _ _ _).2 "boom".toList rfl
      (by decide) (by decide) (by decide)

end Imcflibs

namespace Imcflibs

/-! ## Claim C2: supporting lemmas -/

/-- A character with `isDigit = false` does not occur in an all-digit
string. -/
theorem digit_not_mem {c : Char} (hc : c.isDigit = false) {i : List Char}
    (hd : ∀ x ∈ i, x.isDigit) : c ∉ i :=
  fun hmem => by simpa [hc] using hd c hmem

/-- Characters of the body of an `image-`-delimited URL. -/
theorem mem_imageUrlBody {c : Char} :
    ∀ {ids : List (List Char)}, c ∈ imageUrlBody ids →
      (∃ i ∈ ids, c ∈ i) ∨ c ∈ "|image-".toList := by
  intro ids
  induction ids with
  | nil => intro h; simp [imageUrlBody] at h
  | cons i rest ih =>
    cases rest with
    | nil =>
      intro h
      simp only [imageUrlBody] at h
      exact Or.inl ⟨i, by simp, h⟩
    | cons j rest' =>
      intro h
      simp only [imageUrlBody] at h
      rcases List.mem_append.mp h with h1 | h2
      · rcases List.mem_append.mp h1 with ha | hb
        · exact Or.inl ⟨i, by simp, ha⟩
        · exact Or.inr hb
      · rcases ih h2 with ⟨k, hk, hck⟩ | ho
        · exact Or.inl ⟨k, by simp [hk], hck⟩
        · exact Or.inr ho

/-- Characters of a comma-separated identifier string. -/
theorem mem_commaSeparated {c : Char} :
    ∀ {ids : List (List Char)}, c ∈ commaSeparated ids →
      (∃ i ∈ ids, c ∈ i) ∨ c = ',' := by
  intro ids
  induction ids with
  | nil => intro h; simp [commaSeparated] at h
  | cons i rest ih =>
    cases rest with
    | nil =>
      intro h
      simp only [commaSeparated] at h
      exact Or.inl ⟨i, by simp, h⟩
    | cons j rest' =>
      intro h
      simp only [commaSeparated] at h
      rcases List.mem_append.mp h with h1 | h2
      · rcases List.mem_append.mp h1 with ha | hb
        · exact Or.inl ⟨i, by simp, ha⟩
        · exact Or.inr (by simpa using hb)
      · rcases ih h2 with ⟨k, hk, hck⟩ | ho
        · exact Or.inl ⟨k, by simp [hk], hck⟩
        · exact Or.inr ho

/-- `image-` does not occur in an all-digit identifier. -/
theorem image_marker_not_in_digits {i : List Char} (hd : digitsOnly i) :
    ¬ "image-".toList <:+: i :=
  not_infix_of_not_mem (c := '-') (by decide) (digit_not_mem (by decide) hd.2)

/-- No occurrence of `image-` starts inside the chunk `i ++ "|"` when
`i` is all digits. -/
theorem image_marker_straddle {i : List Char} (hd : digitsOnly i) :
    ¬ "image-".toList <:+: (i ++ ['|']) ++ "image-".toList.dropLast := by
  apply not_infix_of_not_mem (c := '-') (by decide)
  intro hmem
  rcases List.mem_append.mp hmem with h1 | h2
  · rcases List.mem_append.mp h1 with ha | hb
    · exact digit_not_mem (by decide) hd.2 ha
    · simp at hb
  · revert h2; decide

/-- Splitting the URL body on `image-` yields the identifiers, all but
the last with a trailing `|`. -/
theorem pySplit_imageUrlBody :
    ∀ {ids : List (List Char)}, ids ≠ [] → (∀ i ∈ ids, digitsOnly i) →
      pySplit "image-".toList (imageUrlBody ids) = markTrail ids := by
  intro ids
  induction ids with
  | nil => intro h; exact absurd rfl h
  | cons i rest ih =>
    intro _ hd
    cases rest with
    | nil =>
      simp only [imageUrlBody, markTrail]
      exact pySplit_of_not_infix (by decide) (image_marker_not_in_digits (hd i (by simp)))
    | cons j rest' =>
      simp only [imageUrlBody, markTrail]
      have hshape : (i ++ "|image-".toList) ++ imageUrlBody (j :: rest') =
          ((i ++ ['|']) ++ "image-".toList) ++ imageUrlBody (j :: rest') := by
        have h1 : "|image-".toList = ['|'] ++ "image-".toList := by decide
        rw [h1, ← List.append_assoc]
      rw [hshape,
        pySplit_chunk (by decide) (i ++ ['|']) (imageUrlBody (j :: rest'))
          (image_marker_straddle (hd i (by simp))),
        ih (by simp) (fun k hk => hd k (by simp [hk]))]

/-- The per-chunk processing of the image branch
(`s.split("%")[0].replace("|", "")`) recovers each identifier. -/
theorem map_imageTransform :
    ∀ {ids : List (List Char)}, (∀ i ∈ ids, digitsOnly i) →
      (markTrail ids).map
        (fun s => pyReplace "|".toList [] (pyHead (pySplit "%".toList s))) = ids := by
  intro ids
  induction ids with
  | nil => intro _; rfl
  | cons i rest ih =>
    intro hd
    have hdi : digitsOnly i := hd i (by simp)
    cases rest with
    | nil =>
      simp only [markTrail, List.map_cons, List.map_nil]
      have h1 : pySplit "%".toList i = [i] :=
        pySplit_of_not_infix (by decide)
          (not_infix_of_not_mem (c := '%') (by decide) (digit_not_mem (by decide) hdi.2))
      have h2 : pySplit "|".toList i = [i] :=
        pySplit_of_not_infix (by decide)
          (not_infix_of_not_mem (c := '|') (by decide) (digit_not_mem (by decide) hdi.2))
      rw [h1]
      show pyReplace "|".toList [] i :: [] = [i]
      rw [pyReplace, h2]
      simp [List.intercalate, List.intersperse]
    | cons j rest' =>
      simp only [markTrail, List.map_cons]
      have h1 : pySplit "%".toList (i ++ ['|']) = [i ++ ['|']] := by
        apply pySplit_of_not_infix (by decide)
        apply not_infix_of_not_mem (c := '%') (by decide)
        intro hmem
        rcases List.mem_append.mp hmem with ha | hb
        · exact digit_not_mem (by decide) hdi.2 ha
        · simp at hb
      have h2 : pySplit "|".toList (i ++ ['|']) = [i, []] := by
        have hshape : i ++ ['|'] = i ++ "|".toList ++ [] := by
          rw [List.append_nil]
          exact congrArg (fun l => i ++ l) (by decide)
        rw [hshape,
          @pySplit_chunk "|".toList (by decide) i []
            (by
              have hd0 : ("|".toList : List Char).dropLast = [] := by decide
              rw [hd0, List.append_nil]
              exact not_infix_of_not_mem (c := '|') (by decide)
                (digit_not_mem (by decide) hdi.2)),
          pySplit_nil (by decide)]
      rw [h1]
      show pyReplace "|".toList [] (i ++ ['|']) ::
        (markTrail (j :: rest')).map
          (fun s => pyReplace "|".toList [] (pyHead (pySplit "%".toList s))) = _
      rw [pyReplace, h2, ih (fun k hk => hd k (by simp [hk]))]
      simp [List.intercalate, List.intersperse]

/-- Splitting a comma-separated identifier string on `,` yields the
identifiers. -/
theorem pySplit_commaSeparated :
    ∀ {ids : List (List Char)}, ids ≠ [] → (∀ i ∈ ids, digitsOnly i) →
      pySplit ",".toList (commaSeparated ids) = ids := by
  intro ids
  induction ids with
  | nil => intro h; exact absurd rfl h
  | cons i rest ih =>
    intro _ hd
    have hdi : digitsOnly i := hd i (by simp)
    cases rest with
    | nil =>
      simp only [commaSeparated]
      exact pySplit_of_not_infix (by decide)
        (not_infix_of_not_mem (c := ',') (by decide) (digit_not_mem (by decide) hdi.2))
    | cons j rest' =>
      simp only [commaSeparated]
      have hch : ([','] : List Char) = ",".toList := by decide
      rw [hch,
        @pySplit_chunk ",".toList (by decide) i (commaSeparated (j :: rest'))
          (by
            have hd0 : (",".toList : List Char).dropLast = [] := by decide
            rw [hd0, List.append_nil]
            exact not_infix_of_not_mem (c := ',') (by decide)
              (digit_not_mem (by decide) hdi.2)),
        ih (by simp) (fun k hk => hd k (by simp [hk]))]

end Imcflibs

namespace Imcflibs

/-- A character that is not a digit and occurs nowhere in the URL
scaffolding does not occur in an `image-`-delimited URL over all-digit
identifiers. -/
theorem not_mem_imageUrl {c : Char} (hc : c.isDigit = false)
    (h1 : c ∉ urlBase) (h2 : c ∉ "image-".toList) (h3 : c ∉ "|image-".toList)
    {ids : List (List Char)} (hd : ∀ i ∈ ids, digitsOnly i) :
    c ∉ imageUrl ids := by
  intro hmem
  simp only [imageUrl] at hmem
  rcases List.mem_append.mp hmem with ha | hb
  · rcases List.mem_append.mp ha with hu | hs
    · exact h1 hu
    · exact h2 hs
  · rcases mem_imageUrlBody hb with ⟨i, hi, hci⟩ | ho
    · exact digit_not_mem hc (hd i hi).2 hci
    · exact h3 ho

/-! ## Claim C2 -/

/-- Claim C2: for every non-empty list of (digit-string) image
identifiers, `parse_url` on the `image-`-delimited URL built from them
returns the same identifier list — hence the same image wrappers, in the
same order — as `parse_url` on the equivalent comma-separated string. -/
theorem parse_url_image_eq_comma (ids : List (List Char)) (hne : ids ≠ [])
    (hd : ∀ i ∈ ids, digitsOnly i) :
    parse_url (imageUrl ids) = parse_url (commaSeparated ids) := by
  have hD1 : ¬ "dataset-".toList <:+: imageUrl ids :=
    not_infix_of_not_mem (c := 'd') (by decide)
      (not_mem_imageUrl (by decide) (by decide) (by decide) (by decide) hd)
  have hI : "image-".toList <:+: imageUrl ids := ⟨urlBase, imageUrlBody ids, rfl⟩
  have hD2 : ¬ "dataset-".toList <:+: commaSeparated ids := by
    apply not_infix_of_not_mem (c := 'd') (by decide)
    intro hmem
    rcases mem_commaSeparated hmem with ⟨i, hi, hci⟩ | h
    · exact digit_not_mem (by decide) (hd i hi).2 hci
    · exact absurd h (by decide)
  have hI2 : ¬ "image-".toList <:+: commaSeparated ids := by
    apply not_infix_of_not_mem (c := '-') (by decide)
    intro hmem
    rcases mem_commaSeparated hmem with ⟨i, hi, hci⟩ | h
    · exact digit_not_mem (by decide) (hd i hi).2 hci
    · exact absurd h (by decide)
  have hsplit : pySplit "image-".toList (imageUrl ids) = urlBase :: markTrail ids := by
    have hshape : imageUrl ids = urlBase ++ "image-".toList ++ imageUrlBody ids := rfl
    rw [hshape, pySplit_chunk (by decide) urlBase (imageUrlBody ids) (by decide),
      pySplit_imageUrlBody hne hd]
  unfold parse_url
  rw [if_neg hD1, if_pos hI, if_neg hD2, if_neg hI2, hsplit,
    pySplit_commaSeparated hne hd]
  simp only [List.drop_succ_cons, List.drop_zero]
  rw [map_imageTransform hd]

/-- Witness for C2: the identifiers `12` and `34`. -/
theorem parse_url_image_eq_comma_witness :
    parse_url (imageUrl ["12".toList, "34".toList]) =
      parse_url (commaSeparated ["12".toList, "34".toList]) :=
  parse_url_image_eq_comma ["12".toList, "34".toList] (by decide) (by decide)

end Imcflibs

namespace Imcflibs

/-! ## Claim C3: supporting lemmas -/

/-- Invariant of the best-slice fold of `find_focus`: when every
visited slice scores without error, the fold succeeds, and the result
either is the untouched accumulator or carries the score of a visited
slice; the best score never decreases and dominates every visited
score. -/
theorem foldl_best_ok (imp : ImagePlus) (t : ℕ) :
    ∀ (l : List ℕ) (acc : ℕ × ℚ),
      (∀ z ∈ l, ∃ v, sliceVariance imp t z = .ok v) →
      ∃ res : ℕ × ℚ,
        l.foldl (focusStep imp t) (.ok acc) = .ok res ∧
        (res = acc ∨ (res.1 ∈ l ∧ sliceVariance imp t res.1 = .ok res.2)) ∧
        acc.2 ≤ res.2 ∧
        ∀ z v, z ∈ l → sliceVariance imp t z = .ok v → v ≤ res.2 := by
  intro l
  induction l with
  | nil =>
    intro acc _
    exact ⟨acc, rfl, Or.inl rfl, le_refl _, by simp⟩
  | cons z l ih =>
    intro acc hok
    obtain ⟨v, hv⟩ := hok z (by simp)
    obtain ⟨res, hres, hcase, hmono, hdom⟩ :=
      ih (if acc.2 < v then (z, v) else acc) (fun w hw => hok w (by simp [hw]))
    refine ⟨res, ?_, ?_, ?_, ?_⟩
    · rw [List.foldl_cons, focusStep_ok_of_ok imp t acc z v hv]
      exact hres
    · rcases hcase with h | ⟨hmem, hg⟩
      · by_cases hz : acc.2 < v
        · right
          rw [h, if_pos hz]
          exact ⟨List.mem_cons_self z l, hv⟩
        · left
          rw [h, if_neg hz]
      · right
        exact ⟨List.mem_cons_of_mem _ hmem, hg⟩
    · refine le_trans ?_ hmono
      by_cases hz : acc.2 < v
      · rw [if_pos hz]
        exact le_of_lt hz
      · rw [if_neg hz]
    · intro w u hw hu
      rcases List.mem_cons.mp hw with rfl | hwl
      · have hu' : u = v := by
          rw [hv] at hu
          injection hu with h2
          exact h2.symm
        subst hu'
        refine le_trans ?_ hmono
        by_cases hz : acc.2 < u
        · rw [if_pos hz]
        · rw [if_neg hz]
          exact le_of_not_lt hz
      · exact hdom w u hwl hu

/-- When every frame's inner loop succeeds, the timepoint fold of
`find_focus` succeeds. -/
theorem foldl_frames_ok (imp : ImagePlus) :
    ∀ (l : List ℕ) (acc : Option ℕ),
      (∀ t ∈ l, ∃ p, focusOfFrame imp t = .ok p) →
      ∃ o : Option ℕ, l.foldl (frameStep imp) (.ok acc) = .ok o := by
  intro l
  induction l with
  | nil => intro acc _; exact ⟨acc, rfl⟩
  | cons t l ih =>
    intro acc hok
    obtain ⟨p, hp⟩ := hok t (by simp)
    obtain ⟨o, ho⟩ := ih (some p.1) (fun w hw => hok w (by simp [hw]))
    refine ⟨o, ?_⟩
    rw [List.foldl_cons, frameStep_ok imp acc t p hp]
    exact ho

/-- On a single-channel stack whose inner loops all succeed,
`find_focus` returns the slice index computed for the *last*
timepoint. -/
theorem find_focus_ok (imp : ImagePlus) (hc : imp.nChannels = 1) (hf : 1 ≤ imp.nFrames)
    (hok : ∀ t, 1 ≤ t → t ≤ imp.nFrames → ∃ p, focusOfFrame imp t = .ok p)
    (p : ℕ × ℚ) (hlast : focusOfFrame imp imp.nFrames = .ok p) :
    find_focus imp = .ok p.1 := by
  have hcc : ¬ (imp.nChannels ≠ 1) := fun h => h hc
  rw [find_focus, if_neg hcc]
  obtain ⟨n, hn⟩ : ∃ n, imp.nFrames = n + 1 := ⟨imp.nFrames - 1, by omega⟩
  obtain ⟨o, ho⟩ := foldl_frames_ok imp (List.range' 1 n) none
    (fun t ht => hok t (List.mem_range'_1.mp ht).1
      (by have := (List.mem_range'_1.mp ht).2; omega))
  rw [hn, List.range'_1_concat, List.foldl_append, ho, List.foldl_cons, List.foldl_nil,
    frameStep_ok imp o (1 + n) p (by rw [show 1 + n = imp.nFrames by omega]; exact hlast)]

/-! ## Claim C3 -/

/-- Claim C3 counterexample: on the two-timepoint stack `exStack` every
slice scores without error; the globally sharpest slice is `z = 1` (its
score `2` at `t = 1` strictly dominates the other slice scores `0`, `0`
and `1/2`), yet `find_focus` returns `2` — the index of the best slice
of the *last* timepoint only, because the running maximum is reset
inside the timepoint loop. -/
theorem find_focus_not_global_max :
    find_focus exStack = .ok 2 ∧
    sliceVariance exStack 1 1 = .ok 2 ∧
    sliceVariance exStack 1 2 = .ok 0 ∧
    sliceVariance exStack 2 1 = .ok 0 ∧
    sliceVariance exStack 2 2 = .ok (1/2) ∧
    (0:ℚ) < 2 ∧ (1/2:ℚ) < 2 := by
  have h11 : sliceVariance exStack 1 1 = .ok 2 := by
    norm_num [sliceVariance, exStack]
  have h12 : sliceVariance exStack 1 2 = .ok 0 := by
    norm_num [sliceVariance, exStack]
  have h21 : sliceVariance exStack 2 1 = .ok 0 := by
    norm_num [sliceVariance, exStack]
  have h22 : sliceVariance exStack 2 2 = .ok (1/2) := by
    norm_num [sliceVariance, exStack]
  have hr : List.range' 1 exStack.nSlices = [1, 2] := by decide
  have hfo1 : focusOfFrame exStack 1 = .ok (1, 2) := by
    unfold focusOfFrame
    rw [hr, List.foldl_cons, focusStep_ok_of_ok exStack 1 (0, 0) 1 2 h11,
      if_pos (by norm_num : ((0, 0) : ℕ × ℚ).2 < 2),
      List.foldl_cons, focusStep_ok_of_ok exStack 1 (1, 2) 2 0 h12,
      if_neg (by norm_num : ¬ ((1, 2) : ℕ × ℚ).2 < 0)]
    rfl
  have hfo2 : focusOfFrame exStack 2 = .ok (2, 1/2) := by
    unfold focusOfFrame
    rw [hr, List.foldl_cons, focusStep_ok_of_ok exStack 2 (0, 0) 1 0 h21,
      if_neg (by norm_num : ¬ ((0, 0) : ℕ × ℚ).2 < 0),
      List.foldl_cons, focusStep_ok_of_ok exStack 2 (0, 0) 2 (1/2) h22,
      if_pos (by norm_num : ((0, 0) : ℕ × ℚ).2 < 1/2)]
    rfl
  have hframes : ∀ t, 1 ≤ t → t ≤ exStack.nFrames → ∃ p, focusOfFrame exStack t = .ok p := by
    intro t h1 h2
    have h2' : t ≤ 2 := h2
    interval_cases t
    · exact ⟨(1, 2), hfo1⟩
    · exact ⟨(2, 1/2), hfo2⟩
  refine ⟨?_, h11, h12, h21, h22, by norm_num, by norm_num⟩
  exact find_focus_ok exStack rfl (by norm_num [exStack]) hframes (2, 1/2) hfo2

/-- Claim C3 (amended): for a single-channel stack with at least one
timepoint, provided no evaluated slice raises `ZeroDivisionError` and
some slice of the *final* timepoint has positive score, `find_focus`
returns a valid slice index whose score is maximal among the slices of
the final timepoint (earlier timepoints are ignored). -/
theorem find_focus_last_frame (imp : ImagePlus)
    (hc : imp.nChannels = 1) (hf : 1 ≤ imp.nFrames)
    (hok : ∀ t z, 1 ≤ t → t ≤ imp.nFrames → 1 ≤ z → z ≤ imp.nSlices →
      ∃ v, sliceVariance imp t z = .ok v)
    (hpos : ∃ z v, 1 ≤ z ∧ z ≤ imp.nSlices ∧
      sliceVariance imp imp.nFrames z = .ok v ∧ 0 < v) :
    ∃ r, find_focus imp = .ok r ∧ 1 ≤ r ∧ r ≤ imp.nSlices ∧
      ∃ vr, sliceVariance imp imp.nFrames r = .ok vr ∧
        ∀ z v, 1 ≤ z → z ≤ imp.nSlices →
          sliceVariance imp imp.nFrames z = .ok v → v ≤ vr := by
  have hframe : ∀ t, 1 ≤ t → t ≤ imp.nFrames → ∃ p, focusOfFrame imp t = .ok p := by
    intro t h1 h2
    obtain ⟨res, hres, -, -, -⟩ := foldl_best_ok imp t (List.range' 1 imp.nSlices) (0, 0)
      (fun z hz => hok t z h1 h2 (List.mem_range'_1.mp hz).1
        (by have := (List.mem_range'_1.mp hz).2; omega))
    exact ⟨res, hres⟩
  obtain ⟨res, hres, hcase, hmono, hdom⟩ := foldl_best_ok imp imp.nFrames
    (List.range' 1 imp.nSlices) (0, 0)
    (fun z hz => hok imp.nFrames z hf (le_refl _) (List.mem_range'_1.mp hz).1
      (by have := (List.mem_range'_1.mp hz).2; omega))
  have hfres : focusOfFrame imp imp.nFrames = .ok res := hres
  obtain ⟨z₀, v₀, hz1, hz2, hv₀, hv₀pos⟩ := hpos
  have hmem₀ : z₀ ∈ List.range' 1 imp.nSlices := List.mem_range'_1.mpr ⟨hz1, by omega⟩
  have hresbig : 0 < res.2 := lt_of_lt_of_le hv₀pos (hdom z₀ v₀ hmem₀ hv₀)
  rcases hcase with h | ⟨hmem, hg⟩
  · exfalso
    rw [h] at hresbig
    simp at hresbig
  · have hrange := List.mem_range'_1.mp hmem
    refine ⟨res.1, find_focus_ok imp hc hf hframe res hfres, hrange.1, by omega,
      res.2, hg, ?_⟩
    intro z v hz1' hz2' hval
    exact hdom z v (List.mem_range'_1.mpr ⟨hz1', by omega⟩) hval

/-- Witness for the amended C3 theorem, on the stack `exStack`. -/
theorem find_focus_last_frame_witness :
    ∃ r, find_focus exStack = .ok r ∧ 1 ≤ r ∧ r ≤ exStack.nSlices ∧
      ∃ vr, sliceVariance exStack exStack.nFrames r = .ok vr ∧
        ∀ z v, 1 ≤ z → z ≤ exStack.nSlices →
          sliceVariance exStack exStack.nFrames z = .ok v → v ≤ vr :=
  find_focus_last_frame exStack rfl (by norm_num [exStack])
    (by
      intro t z h1 h2 h3 h4
      have h2' : t ≤ 2 := h2
      have h4' : z ≤ 2 := h4
      interval_cases t <;> interval_cases z
      · exact ⟨2, by norm_num [sliceVariance, exStack]⟩
      · exact ⟨0, by norm_num [sliceVariance, exStack]⟩
      · exact ⟨0, by norm_num [sliceVariance, exStack]⟩
      · exact ⟨1/2, by norm_num [sliceVariance, exStack]⟩)
    ⟨2, 1/2, by norm_num, by norm_num [exStack],
      by norm_num [sliceVariance, exStack], by norm_num⟩

end Imcflibs

namespace Imcflibs

/-! ## Claim C1: supporting lemmas -/

/-- The natural floor of the real square root of a natural number is
the integer square root. -/
theorem natFloor_real_sqrt (N : ℕ) : ⌊Real.sqrt N⌋₊ = Nat.sqrt N := by
  rw [Nat.floor_eq_iff (Real.sqrt_nonneg _)]
  exact ⟨Real.nat_sqrt_le_real_sqrt, by exact_mod_cast Real.real_sqrt_lt_nat_sqrt_succ⟩

/-- `pyRoundSqrt` indeed computes `⌊10^d * √v + 1/2⌋ / 10^d`, i.e.
Python 2's `round(v ** 0.5, d)` on the exact real square root, for
`v ≥ 0`. -/
theorem pyRoundSqrt_eq_floor_sqrt (v : ℚ) (hv : 0 ≤ v) (d : ℕ) :
    pyRoundSqrt v d =
      ((⌊(10:ℝ)^d * Real.sqrt (v : ℝ) + 1/2⌋₊ : ℕ) : ℚ) / (10:ℚ)^d := by
  have hb0 : 0 < v.den := v.pos
  have hnum : ((v.num.toNat : ℤ)) = v.num := Int.toNat_of_nonneg (Rat.num_nonneg.mpr hv)
  have hVr : (v : ℝ) = (v.num.toNat : ℝ) / (v.den : ℝ) := by
    rw [Rat.cast_def]
    congr 1
    exact_mod_cast hnum.symm
  have hbR : (0:ℝ) < (v.den : ℝ) := by exact_mod_cast hb0
  have hsqrt : Real.sqrt (v : ℝ)
      = Real.sqrt ((v.num.toNat : ℝ) * (v.den : ℝ)) / (v.den : ℝ) := by
    rw [hVr,
      show (v.num.toNat : ℝ) / (v.den : ℝ)
        = ((v.num.toNat : ℝ) * (v.den : ℝ)) / ((v.den : ℝ)^2) by
          field_simp; ring,
      Real.sqrt_div (by positivity) (((v.den : ℝ))^2),
      Real.sqrt_sq hbR.le]
  have hXfloor : ⌊(10:ℝ)^d * Real.sqrt (v:ℝ) + 1/2⌋₊
      = (Nat.sqrt (4 * 10^(2*d) * v.num.toNat * v.den) + v.den) / (2 * v.den) := by
    have hX : (10:ℝ)^d * Real.sqrt (v:ℝ) + 1/2
        = (2 * (10:ℝ)^d * Real.sqrt ((v.num.toNat : ℝ) * (v.den : ℝ)) + (v.den : ℕ))
          / ((2 * v.den : ℕ) : ℝ) := by
      rw [hsqrt]
      push_cast
      field_simp
      ring
    rw [hX, Nat.floor_div_nat, Nat.floor_add_nat (by positivity)]
    have h2sqrt : Real.sqrt (((4 * 10^(2*d) * v.num.toNat * v.den : ℕ) : ℝ))
        = (2:ℝ) * (10:ℝ)^d * Real.sqrt ((v.num.toNat : ℝ) * (v.den : ℝ)) := by
      rw [show ((4 * 10^(2*d) * v.num.toNat * v.den : ℕ) : ℝ)
          = ((2 * (10:ℝ)^d)^2) * ((v.num.toNat : ℝ) * (v.den : ℝ)) by push_cast; ring]
      rw [Real.sqrt_mul (by positivity) ((v.num.toNat : ℝ) * (v.den : ℝ))]
      rw [Real.sqrt_sq (by positivity)]
    rw [← h2sqrt, natFloor_real_sqrt]
  rw [hXfloor]
  rfl

end Imcflibs

namespace Imcflibs

/-! ## Claim C1 -/

/-- Claim C1 counterexample: on `[0, 0, 1, 1, 1]` (no `None` entries)
the function returns `(1, 1)` — the rounded mean with `round_decimals`
defaulting to `0` — while the textbook population mean is `3/5`, so the
returned pair does not consist of the textbook statistics. -/
theorem calculate_mean_and_stdv_not_textbook :
    calculate_mean_and_stdv [some 0, some 0, some 1, some 1, some 1] = (1, 1) ∧
    textbookMean [0, 0, 1, 1, 1] = 3/5 ∧
    ((1:ℚ), (1:ℚ)).1 ≠ ((3:ℚ)/5) := by
  have hfl : (⌊(3:ℚ)/5 * 10^0 + 1/2⌋ : ℤ) = 1 := by
    norm_num [Int.floor_eq_iff]
  have hmean : pyRound (3/5) 0 = 1 := by
    unfold pyRound
    rw [if_pos (by norm_num : (0:ℚ) ≤ 3/5), hfl]
    norm_num
  have hstd : pyRoundSqrt (2/5) 0 = 1 := by
    unfold pyRoundSqrt
    have hnum : ((2:ℚ)/5).num.toNat = 2 := by
      norm_num
      decide
    have hden : ((2:ℚ)/5).den = 5 := by norm_num
    rw [hnum, hden]
    norm_num
  have hfilter : ([some 0, some 0, some 1, some 1, some (1:ℚ)].filterMap id)
      = [0, 0, 1, 1, 1] := rfl
  refine ⟨?_, by norm_num [textbookMean], by norm_num⟩
  simp only [calculate_mean_and_stdv]
  rw [hfilter, if_neg (by simp : ¬([0, 0, 1, 1, 1] : List ℚ) = [])]
  have hsum : ([0, 0, 1, 1, 1] : List ℚ).sum = 3 := by norm_num
  have hlen : ((([0, 0, 1, 1, 1] : List ℚ).length : ℕ) : ℚ) = 5 := by norm_num
  rw [hsum, hlen, show (3:ℚ)/5 = 3/5 from rfl, hmean]
  have hmap : (([0, 0, 1, 1, 1] : List ℚ).map fun x => (x - 1)^2).sum = 2 := by
    norm_num
  rw [hmap, show (2:ℚ)/5 = 2/5 from rfl, hstd]

/-- Claim C1 (amended): with the default `round_decimals = 0`, the
function returns `(0, 0)` on empty or all-`None` input; otherwise it
returns the *rounded* textbook mean (half away from zero, to an
integer) paired with the rounded square root of the mean squared
deviation of the non-`None` elements from that *rounded* mean — not the
textbook mean and standard deviation themselves. -/
theorem calculate_mean_and_stdv_spec (values_list : List (Option ℚ)) :
    (values_list.filterMap id = [] → calculate_mean_and_stdv values_list = (0, 0)) ∧
    (values_list.filterMap id ≠ [] →
      calculate_mean_and_stdv values_list =
        (pyRound (textbookMean (values_list.filterMap id)) 0,
         ((⌊Real.sqrt ((((values_list.filterMap id).map
              (fun x => (x - pyRound (textbookMean (values_list.filterMap id)) 0)^2)).sum
              / ((values_list.filterMap id).length : ℚ) : ℚ) : ℝ) + 1/2⌋₊ : ℕ) : ℚ))) := by
  constructor
  · intro h
    simp only [calculate_mean_and_stdv]
    rw [if_pos h]
  · intro h
    have hv : (0:ℚ) ≤ ((values_list.filterMap id).map
        (fun x => (x - pyRound (textbookMean (values_list.filterMap id)) 0)^2)).sum
        / ((values_list.filterMap id).length : ℚ) := by
      apply div_nonneg
      · apply List.sum_nonneg
        intro x hx
        obtain ⟨y, _, rfl⟩ := List.mem_map.mp hx
        positivity
      · positivity
    have htb : textbookMean (values_list.filterMap id)
        = (values_list.filterMap id).sum / ((values_list.filterMap id).length : ℚ) := rfl
    simp only [calculate_mean_and_stdv]
    rw [if_neg h, ← htb]
    refine Prod.ext rfl ?_
    show pyRoundSqrt _ 0 = _
    rw [pyRoundSqrt_eq_floor_sqrt _ hv 0]
    norm_num

/-- Witness for the amended C1 theorem, on the list `[0, 2]`. -/
theorem calculate_mean_and_stdv_spec_witness :
    (([some 0, some (2:ℚ)] : List (Option ℚ)).filterMap id ≠ [] →
      calculate_mean_and_stdv [some 0, some (2:ℚ)] =
        (pyRound (textbookMean (([some 0, some (2:ℚ)] : List (Option ℚ)).filterMap id)) 0,
         ((⌊Real.sqrt ((((([some 0, some (2:ℚ)] : List (Option ℚ)).filterMap id).map
              (fun x => (x - pyRound (textbookMean
                (([some 0, some (2:ℚ)] : List (Option ℚ)).filterMap id)) 0)^2)).sum
              / ((([some 0, some (2:ℚ)] : List (Option ℚ)).filterMap id).length : ℚ)
              : ℚ) : ℝ) + 1/2⌋₊ : ℕ) : ℚ))) :=
  (calculate_mean_and_stdv_spec [some 0, some (2:ℚ)]).2

end Imcflibs

namespace Imcflibs

/-! ## Claim C4: supporting lemmas -/

/-- `digitChar` always yields a digit character. -/
theorem digitChar_isDigit (n : ℕ) : (digitChar n).isDigit = true := by
  match n with
  | 0 | 1 | 2 | 3 | 4 | 5 | 6 | 7 | 8 => rfl
  | m+9 => rfl

/-- Digits of zero are empty, for any fuel. -/
theorem natDigitsAux_zero : ∀ fuel, natDigitsAux fuel 0 = [] := by
  intro fuel
  cases fuel with
  | zero => rfl
  | succ fuel => simp [natDigitsAux]

/-- A number below ten has at most one digit. -/
theorem natDigitsAux_len1 : ∀ (fuel n : ℕ), n < 10 → (natDigitsAux fuel n).length ≤ 1 := by
  intro fuel
  cases fuel with
  | zero => intro n _; simp [natDigitsAux]
  | succ fuel =>
    intro n hn
    by_cases h0 : n = 0
    · simp [natDigitsAux, h0]
    · have hdiv : n / 10 = 0 := Nat.div_eq_of_lt hn
      simp [natDigitsAux, h0, hdiv, natDigitsAux_zero]

/-- A number below one hundred has at most two digits. -/
theorem natDigitsAux_len2 : ∀ (fuel n : ℕ), n < 100 → (natDigitsAux fuel n).length ≤ 2 := by
  intro fuel
  cases fuel with
  | zero => intro n _; simp [natDigitsAux]
  | succ fuel =>
    intro n hn
    by_cases h0 : n = 0
    · simp [natDigitsAux, h0]
    · have hdiv : n / 10 < 10 := by omega
      have hlen := natDigitsAux_len1 fuel (n / 10) hdiv
      simp [natDigitsAux, h0]
      omega

/-- Every character produced by `natDigitsAux` is a digit. -/
theorem natDigitsAux_digits : ∀ (fuel n : ℕ), ∀ c ∈ natDigitsAux fuel n, c.isDigit = true := by
  intro fuel
  induction fuel with
  | zero => intro n c hc; simp [natDigitsAux] at hc
  | succ fuel ih =>
    intro n c hc
    by_cases h0 : n = 0
    · simp [natDigitsAux, h0] at hc
    · simp only [natDigitsAux, h0, if_neg] at hc
      rcases List.mem_append.mp hc with h | h
      · exact ih (n / 10) c h
      · rw [List.mem_singleton.mp h]
        exact digitChar_isDigit (n % 10)

/-- `str(n)` of a number below one hundred has at most two characters. -/
theorem natToChars_len2 {n : ℕ} (h : n < 100) : (natToChars n).length ≤ 2 := by
  by_cases h0 : n = 0
  · simp [natToChars, h0]
  · simp only [natToChars, h0, if_neg]
    exact natDigitsAux_len2 n n h

/-- `str(n)` consists of digits. -/
theorem natToChars_digits (n : ℕ) : ∀ c ∈ natToChars n, c.isDigit = true := by
  by_cases h0 : n = 0
  · intro c hc; simp [natToChars, h0] at hc; simp [hc]
  · intro c hc
    simp only [natToChars, h0, if_neg] at hc
    exact natDigitsAux_digits n n c hc

/-- Padding a short string to width two gives length exactly two. -/
theorem padZero2_length {s : List Char} (h : s.length ≤ 2) : (padZero2 s).length = 2 := by
  simp [padZero2]
  omega

/-- Padding with zeros preserves digit-ness. -/
theorem padZero2_digits {s : List Char} (h : ∀ c ∈ s, c.isDigit = true) :
    ∀ c ∈ padZero2 s, c.isDigit = true := by
  intro c hc
  rcases List.mem_append.mp hc with h1 | h2
  · rw [List.eq_of_mem_replicate h1]; rfl
  · exact h c h2

/-- `str` of a non-negative integer. -/
theorem intToChars_nonneg {i : ℤ} (h : 0 ≤ i) : intToChars i = natToChars i.toNat := by
  rw [intToChars, if_neg (not_lt.mpr h)]

/-- The rounding of a value in `[0, 6000)` lies in `[0, 6000]`. -/
theorem roundHalfEven_bounds {q : ℚ} (h0 : 0 ≤ q) (h1 : q < 6000) :
    0 ≤ roundHalfEven q ∧ roundHalfEven q ≤ 6000 := by
  have hf0 : (0:ℤ) ≤ ⌊q⌋ := Int.floor_nonneg.mpr h0
  have hf1 : ⌊q⌋ < 6000 := by
    rw [Int.floor_lt]
    exact_mod_cast h1
  simp only [roundHalfEven]
  split_ifs <;> constructor <;> omega

/-- Assembling the `HH:MM:SS.ss` shape from in-range field values. -/
theorem isElapsedFormat_build (H M c : ℤ)
    (hH0 : 0 ≤ H) (hH1 : H < 100) (hM0 : 0 ≤ M) (hM1 : M < 100)
    (hc0 : 0 ≤ c) (hc1 : c < 10000) :
    isElapsedFormat (padZero2 (intToChars H) ++ [':'] ++ padZero2 (intToChars M)
      ++ [':'] ++ (padZero2 (intToChars (c / 100)) ++ ['.']
      ++ padZero2 (natToChars (c % 100).toNat))) := by
  have hd0 : (0:ℤ) ≤ c / 100 := Int.ediv_nonneg hc0 (by norm_num)
  have hd1 : c / 100 < 100 := by omega
  have hm0 : (0:ℤ) ≤ c % 100 := Int.emod_nonneg c (by norm_num)
  have hm1 : c % 100 < 100 := Int.emod_lt_of_pos c (by norm_num)
  refine ⟨padZero2 (intToChars H), padZero2 (intToChars M),
    padZero2 (intToChars (c / 100)), padZero2 (natToChars (c % 100).toNat),
    by simp [List.append_assoc], ?_, ?_, ?_, ?_, ?_, ?_, ?_, ?_⟩
  · rw [intToChars_nonneg hH0]
    exact padZero2_length (natToChars_len2 (by omega))
  · rw [intToChars_nonneg hM0]
    exact padZero2_length (natToChars_len2 (by omega))
  · rw [intToChars_nonneg hd0]
    exact padZero2_length (natToChars_len2 (by omega))
  · exact padZero2_length (natToChars_len2 (by omega))
  · rw [intToChars_nonneg hH0]
    exact padZero2_digits (natToChars_digits _)
  · rw [intToChars_nonneg hM0]
    exact padZero2_digits (natToChars_digits _)
  · rw [intToChars_nonneg hd0]
    exact padZero2_digits (natToChars_digits _)
  · exact padZero2_digits (natToChars_digits _)

end Imcflibs

namespace Imcflibs

/-! ## Claim C4 -/

/-- Claim C4 counterexample: with `start = 0` and `end = 360000`
(100 hours elapsed; `end ≥ start` holds), the output is
`100:00:00.00` — the hours field has *three* digits, so the claimed
`HH:MM:SS.ss` shape with exactly two-digit hours fails. -/
theorem elapsed_time_since_three_digit_hours :
    elapsed_time_since 0 0 (some 360000) = "100:00:00.00".toList ∧
    ¬ isElapsedFormat (elapsed_time_since 0 0 (some 360000)) ∧
    ((0:ℚ) ≤ 360000 - 0) := by
  have hstr : elapsed_time_since 0 0 (some 360000) = "100:00:00.00".toList := by
    rw [elapsed_time_since_some 0 0 (by norm_num),
      formatElapsed_eval (360000 - 0) 100 0 (by norm_num [Int.floor_eq_iff]) (by norm_num),
      fmtSeconds_eval _ 0 (by norm_num [roundHalfEven])]
    decide
  refine ⟨hstr, ?_, by norm_num⟩
  rw [hstr]
  rintro ⟨hh, mm, ip, fp, heq, hlh, -, -, -, -, -, -, -⟩
  simp only [List.append_assoc] at heq
  have h2 := congrArg (fun l => l[2]?) heq
  simp only at h2
  rw [List.getElem?_append_right (by omega : hh.length ≤ 2)] at h2
  rw [hlh] at h2
  have hL : ("100:00:00.00".toList)[2]? = some '0' := by decide
  rw [hL] at h2
  simp at h2

/-- Claim C4 (amended): for an explicitly given non-zero end time with
`0 ≤ end - start < 360000` (less than 100 hours), the output has the
`HH:MM:SS.ss` shape: hours and minutes zero-padded to exactly two
digits and the seconds field with a two-digit integer part and exactly
two decimal places.  (For elapsed times of 100 hours or more the hours
field exceeds two digits, as the counterexample shows; `{:0>2}` pads to
width *at least* two.) -/
theorem elapsed_time_since_format (now start e : ℚ)
    (he : e ≠ 0) (h0 : 0 ≤ e - start) (h1 : e - start < 360000) :
    isElapsedFormat (elapsed_time_since now start (some e)) := by
  rw [elapsed_time_since_some now start he,
    formatElapsed_eval (e - start) ⌊(e - start) / 3600⌋
      ⌊((e - start) - 3600 * ((⌊(e - start) / 3600⌋ : ℤ) : ℚ)) / 60⌋ rfl rfl,
    fmtSeconds_eval _ _ rfl]
  -- bounds for the hours field
  have hH0 : (0:ℤ) ≤ ⌊(e - start) / 3600⌋ :=
    Int.floor_nonneg.mpr (by positivity)
  have hH1 : ⌊(e - start) / 3600⌋ < 100 := by
    rw [Int.floor_lt, div_lt_iff₀ (by norm_num : (0:ℚ) < 3600)]
    push_cast
    linarith
  -- bounds for the remainder after removing whole hours
  have hr0 : 0 ≤ (e - start) - 3600 * ((⌊(e - start) / 3600⌋ : ℤ) : ℚ) := by
    have h := Int.floor_le ((e - start) / 3600)
    rw [le_div_iff₀ (by norm_num : (0:ℚ) < 3600)] at h
    linarith
  have hr1 : (e - start) - 3600 * ((⌊(e - start) / 3600⌋ : ℤ) : ℚ) < 3600 := by
    have h := Int.lt_floor_add_one ((e - start) / 3600)
    rw [div_lt_iff₀ (by norm_num : (0:ℚ) < 3600)] at h
    linarith
  -- bounds for the minutes field
  have hM0 : (0:ℤ) ≤ ⌊((e - start) - 3600 * ((⌊(e - start) / 3600⌋ : ℤ) : ℚ)) / 60⌋ :=
    Int.floor_nonneg.mpr (by positivity)
  have hM1 : ⌊((e - start) - 3600 * ((⌊(e - start) / 3600⌋ : ℤ) : ℚ)) / 60⌋ < 100 := by
    rw [Int.floor_lt, div_lt_iff₀ (by norm_num : (0:ℚ) < 60)]
    push_cast
    linarith
  -- bounds for the seconds value
  have hs0 : 0 ≤ (e - start) - 3600 * ((⌊(e - start) / 3600⌋ : ℤ) : ℚ)
      - 60 * ((⌊((e - start) - 3600 * ((⌊(e - start) / 3600⌋ : ℤ) : ℚ)) / 60⌋ : ℤ) : ℚ) := by
    have h := Int.floor_le (((e - start) - 3600 * ((⌊(e - start) / 3600⌋ : ℤ) : ℚ)) / 60)
    rw [le_div_iff₀ (by norm_num : (0:ℚ) < 60)] at h
    linarith
  have hs1 : (e - start) - 3600 * ((⌊(e - start) / 3600⌋ : ℤ) : ℚ)
      - 60 * ((⌊((e - start) - 3600 * ((⌊(e - start) / 3600⌋ : ℤ) : ℚ)) / 60⌋ : ℤ) : ℚ)
      < 60 := by
    have h := Int.lt_floor_add_one (((e - start) - 3600 * ((⌊(e - start) / 3600⌋ : ℤ) : ℚ)) / 60)
    rw [div_lt_iff₀ (by norm_num : (0:ℚ) < 60)] at h
    linarith
  obtain ⟨hc0, hc1⟩ := roundHalfEven_bounds (q := ((e - start)
      - 3600 * ((⌊(e - start) / 3600⌋ : ℤ) : ℚ)
      - 60 * ((⌊((e - start) - 3600 * ((⌊(e - start) / 3600⌋ : ℤ) : ℚ)) / 60⌋ : ℤ) : ℚ)) * 100)
    (by positivity) (by linarith)
  exact isElapsedFormat_build _ _ _ hH0 hH1 hM0 hM1 hc0 (by omega)

/-- Witness for the amended C4 theorem: one hour, two minutes and three
and a half seconds. -/
theorem elapsed_time_since_format_witness :
    isElapsedFormat (elapsed_time_since 0 0 (some 3723.5)) :=
  elapsed_time_since_format 0 0 3723.5 (by norm_num) (by norm_num) (by norm_num)

end Imcflibs
